import Mathlib

/-!
Shallow embedding of the Base DeFi APR Finder ranking pipeline
(`src/src/App.tsx`).  JavaScript numbers are modelled as rationals (`ℚ`);
`Math.log10` is kept abstract as a function parameter `log10 : ℚ → ℚ`
threaded through the pipeline, since none of the properties below depend on
its values.  Nullable fields (`number | null`, `boolean | null | undefined`)
become `Option`; the JS null-coalescing operator `x ?? d` becomes
`Option.getD x d`.  `Array.prototype.sort` with a comparator of the shape
`(a, b) => key b - key a` is modelled as a stable descending insertion sort
by that key (ES2019 requires `sort` to be stable, and for a consistent
numeric comparator the resulting order is exactly "descending by key,
ties in original order").
-/

/-- The `Pool` record type of `App.tsx` (lines 3–14).  `pool` is the opaque
    id, `tvlUsd` and `apy` are nullable numbers, `stablecoin` a tri-state
    boolean. -/
structure Pool where
  pool : String
  project : String
  chain : String
  symbol : String
  tvlUsd : Option ℚ
  apy : Option ℚ
  apyBase : Option ℚ
  apyReward : Option ℚ
  url : Option String
  stablecoin : Option Bool
deriving DecidableEq

/-- A pool augmented with the computed `_score` field, the result of the
    spread `{ ...p, _score: score(p) }` on line 61 of `App.tsx`. -/
structure Ranked extends Pool where
  _score : ℚ
deriving DecidableEq

/-- The three sort keys of the `sortBy` select (line 33 of `App.tsx`). -/
inductive SortBy
  | score
  | apy
  | tvl
deriving DecidableEq

/-- The user-controlled configuration driving the pipeline: search query,
    TVL floor, stable-only toggle, sort key and page size (lines 30–34). -/
structure ViewConfig where
  q : String
  minTVL : ℚ
  stableOnly : Bool
  sortBy : SortBy
  limit : Nat
deriving DecidableEq

/-- `startsWithChars l pat` is true when `pat` is an initial segment of
    `l`; helper for the substring test below. -/
def startsWithChars : List Char → List Char → Bool
  | _, [] => true
  | [], _ :: _ => false
  | a :: l, b :: p => a == b && startsWithChars l p

/-- `hasSubChars l pat` is true when `pat` occurs contiguously inside `l`;
    models JavaScript `String.prototype.includes`. -/
def hasSubChars : List Char → List Char → Bool
  | [], pat => pat.isEmpty
  | a :: t, pat => startsWithChars (a :: t) pat || hasSubChars t pat

/-- JS `haystack.includes(needle)`: substring containment. -/
def jsIncludes (s sub : String) : Bool := hasSubChars s.data sub.data

/-- JS `toUpperCase`, modelled characterwise (agrees on ASCII, which is all
    the fixed stable-symbol substrings use). -/
def jsToUpper (s : String) : String := ⟨s.data.map Char.toUpper⟩

/-- JS `toLowerCase`, modelled characterwise. -/
def jsToLower (s : String) : String := ⟨s.data.map Char.toLower⟩

/-- The fixed substring list of the stable-coin heuristic
    (`App.tsx` line 21). -/
def stableSymbols : List String :=
  ["USDC", "USDT", "DAI", "USDB", "FDUSD", "MUSD", "USDE", "PYUSD"]

/-- `looksStable` (`App.tsx` lines 19–24): uppercase the symbol and test
    whether any of the fixed substrings occurs in it.  (The source guards
    with `p.symbol || ""`; since `symbol` is a non-nullable string in the
    `Pool` type this is the identity and is dropped here.) -/
def looksStable (p : Pool) : Bool :=
  let sym := jsToUpper p.symbol
  stableSymbols.any (fun s => jsIncludes sym s)

/-- `score` (`App.tsx` line 26): `(p.apy ?? 0) * Math.log10(1 + (p.tvlUsd ?? 0))`. -/
def score (log10 : ℚ → ℚ) (p : Pool) : ℚ :=
  p.apy.getD 0 * log10 (1 + p.tvlUsd.getD 0)

/-- Chain filter predicate (`App.tsx` line 52): `p.chain === "Base"`. -/
def chainPred (p : Pool) : Bool := p.chain == "Base"

/-- TVL floor predicate (`App.tsx` line 56): `(p.tvlUsd ?? 0) >= minTVL`. -/
def tvlPred (cfg : ViewConfig) (p : Pool) : Bool :=
  decide (p.tvlUsd.getD 0 ≥ cfg.minTVL)

/-- Stable-only predicate (`App.tsx` line 57):
    `stableOnly ? (p.stablecoin ?? looksStable(p)) : true`. -/
def stablePred (cfg : ViewConfig) (p : Pool) : Bool :=
  if cfg.stableOnly then p.stablecoin.getD (looksStable p) else true

/-- Text filter predicate (`App.tsx` lines 58–60):
    `q ? (p.project + " " + (p.symbol ?? "")).toLowerCase().includes(q.toLowerCase()) : true`.
    (`p.symbol ?? ""` is the identity on the non-nullable `symbol`.) -/
def textPred (cfg : ViewConfig) (p : Pool) : Bool :=
  if cfg.q = "" then true
  else jsIncludes (jsToLower (p.project ++ " " ++ p.symbol)) (jsToLower cfg.q)

/-- `basePools` (`App.tsx` line 52): the chain-restricted record set. -/
def basePools (raw : List Pool) : List Pool := raw.filter chainPred

/-- The score-augmentation map of `App.tsx` line 61:
    `p => ({ ...p, _score: score(p) })`. -/
def withScore (log10 : ℚ → ℚ) (p : Pool) : Ranked :=
  { toPool := p, _score := score log10 p }

/-- The filter chain of `App.tsx` lines 55–60 applied after the chain
    restriction: TVL floor, then stable-only, then text filter. -/
def filteredPools (raw : List Pool) (cfg : ViewConfig) : List Pool :=
  (((basePools raw).filter (tvlPred cfg)).filter (stablePred cfg)).filter (textPred cfg)

/-- The filtered list with scores attached (`App.tsx` line 61). -/
def rankedPools (log10 : ℚ → ℚ) (raw : List Pool) (cfg : ViewConfig) : List Ranked :=
  (filteredPools raw cfg).map (withScore log10)

/-- The numeric key the comparator of `App.tsx` lines 63–67 sorts by,
    descending: `apy` → `b.apy ?? -1`, `tvl` → `b.tvlUsd ?? 0`,
    `score` → `b._score ?? 0` (`_score` is always set by the map stage, so
    the coalescing is the identity here). -/
def sortKey : SortBy → Ranked → ℚ
  | SortBy.apy, r => r.apy.getD (-1)
  | SortBy.tvl, r => r.tvlUsd.getD 0
  | SortBy.score, r => r._score

/-- The sort stage (`App.tsx` lines 63–67): stable sort, descending by
    `sortKey` — `a` may precede `b` exactly when `sortKey b ≤ sortKey a`. -/
def sortedPools (log10 : ℚ → ℚ) (raw : List Pool) (cfg : ViewConfig) : List Ranked :=
  List.insertionSort
    (fun a b => sortKey cfg.sortBy b ≤ sortKey cfg.sortBy a)
    (rankedPools log10 raw cfg)

/-- The full pipeline (`App.tsx` lines 52–70): chain filter, TVL floor,
    stable-only filter, text filter, score augmentation, stable descending
    sort, truncation `arr.slice(0, limit)`. -/
def pipeline (log10 : ℚ → ℚ) (raw : List Pool) (cfg : ViewConfig) : List Ranked :=
  (sortedPools log10 raw cfg).take cfg.limit

/-- Sequential application of a list of filter predicates, left to right. -/
def applyFilters (ps : List (Pool → Bool)) (l : List Pool) : List Pool :=
  ps.foldl (fun acc f => acc.filter f) l

/-- The stable-only predicate as the spec words it (§4.1/§4.3 item 3):
    the explicit `stablecoin` field takes precedence whenever present
    (including explicit `false`); only when absent does the uppercase
    substring heuristic decide. -/
def stableSpecPred (p : Pool) : Bool :=
  match p.stablecoin with
  | some b => b
  | none =>
      (["USDC", "USDT", "DAI", "USDB", "FDUSD", "MUSD", "USDE", "PYUSD"] : List String).any
        (fun s => jsIncludes (jsToUpper p.symbol) s)

/-- The adjacency relation the claim about the `apy` sort asserts: null
    `apy` treated as strictly below every real `apy` value (conceptually
    negative infinity). -/
def apyGeWithNullBottom (a b : Ranked) : Bool :=
  match a.apy, b.apy with
  | some x, some y => decide (y ≤ x)
  | some _, none => true
  | none, some _ => false
  | none, none => true

/-- The session fetch-related state of `App.tsx` lines 29–36: the cached
    raw list, the error banner text and the loading flag. -/
structure FetchState where
  raw : List Pool
  err : Option String
  loading : Bool

/-- The fulfilled branch of the fetch effect (`App.tsx` lines 41–48):
    `setRaw(j?.data ?? [])` followed by `setLoading(false)` in `finally`;
    `setErr` is not called on this path.  `data` is the optional `data`
    field of the parsed response (`none` both when the field is absent and
    when the whole body is nullish). -/
def onFetchSuccess (data : Option (List Pool)) (s : FetchState) : FetchState :=
  { s with raw := data.getD [], loading := false }

/-- A log10 stand-in used for concrete evaluations; the pipeline theorems
    hold for every `log10`. -/
def l10z : ℚ → ℚ := fun _ => 0

/-- A Base-chain pool with a real but negative `apy`. -/
def poolNegApy : Pool :=
  { pool := "neg", project := "ProjA", chain := "Base", symbol := "WETH",
    tvlUsd := some 100000, apy := some (-2), apyBase := none,
    apyReward := none, url := none, stablecoin := none }

/-- A Base-chain pool whose `apy` is null. -/
def poolNullApy : Pool :=
  { pool := "null", project := "ProjB", chain := "Base", symbol := "WBTC",
    tvlUsd := some 100000, apy := none, apyBase := none,
    apyReward := none, url := none, stablecoin := none }

/-- A Base-chain USDC pool, the spec's Scenario B record. -/
def poolUSDC : Pool :=
  { pool := "b", project := "ProjC", chain := "Base", symbol := "USDC",
    tvlUsd := some 100000, apy := some 5, apyBase := none,
    apyReward := none, url := none, stablecoin := none }

/-- Concrete raw list exercising the `apy` sort with a null and a negative
    real `apy`. -/
def rawC1 : List Pool := [poolNegApy, poolNullApy]

/-- Configuration selecting the `apy` sort, with no other filtering. -/
def cfgApy : ViewConfig :=
  { q := "", minTVL := 0, stableOnly := false, sortBy := SortBy.apy, limit := 30 }

/-- The default configuration of `App.tsx` lines 30–34. -/
def cfgDefault : ViewConfig :=
  { q := "", minTVL := 50000, stableOnly := false, sortBy := SortBy.score, limit := 30 }

/-- Concrete single-record raw list for witnesses. -/
def rawW : List Pool := [poolUSDC]

/-- Insertion sort descending by a rational key yields a list that is
    pairwise descending in that key. -/
theorem key_sorted {α : Type} (k : α → ℚ) (l : List α) :
    (List.insertionSort (fun a b => k b ≤ k a) l).Pairwise (fun a b => k b ≤ k a) := by
  haveI h1 : IsTotal α (fun a b => k b ≤ k a) := ⟨fun a b => le_total (k b) (k a)⟩
  haveI h2 : IsTrans α (fun a b => k b ≤ k a) := ⟨fun a b c hab hbc => le_trans hbc hab⟩
  exact List.sorted_insertionSort _ l

/-- Restricting to the elements whose key equals a fixed value commutes
    with a descending ordered insertion: the inserted element lands in
    front of every retained element exactly when its own key matches. -/
theorem filterEq_orderedInsert {α : Type} (k : α → ℚ) (c : ℚ) (x : α) (s : List α) :
    (List.orderedInsert (fun a b => k b ≤ k a) x s).filter (fun y => decide (k y = c))
      = if k x = c then x :: s.filter (fun y => decide (k y = c))
        else s.filter (fun y => decide (k y = c)) := by
  induction s with
  | nil => by_cases hx : k x = c <;> simp [List.orderedInsert, hx]
  | cons y t ih =>
      simp only [List.orderedInsert]
      by_cases hxy : k y ≤ k x
      · rw [if_pos hxy]
        by_cases hx : k x = c <;> simp [List.filter_cons, hx]
      · rw [if_neg hxy]
        have hlt : k x < k y := lt_of_not_le hxy
        by_cases hx : k x = c
        · have hy : ¬ (k y = c) := by
            intro hyc
            rw [hx, hyc] at hlt
            exact lt_irrefl c hlt
          simp [List.filter_cons, ih, hx, hy]
        · simp [List.filter_cons, ih, hx]

/-- Stability of the descending insertion sort, stated as: the sublist of
    elements whose key equals any fixed value is unchanged by sorting. -/
theorem filterEq_insertionSort {α : Type} (k : α → ℚ) (c : ℚ) (l : List α) :
    (List.insertionSort (fun a b => k b ≤ k a) l).filter (fun y => decide (k y = c))
      = l.filter (fun y => decide (k y = c)) := by
  induction l with
  | nil => rfl
  | cons x l ih =>
      simp only [List.insertionSort]
      rw [filterEq_orderedInsert k c x (List.insertionSort _ l)]
      by_cases hx : k x = c <;> simp [hx, ih]

/-- Conjunction of a list of record predicates is invariant under
    permutation of the list. -/
theorem all_perm_apply {l1 l2 : List (Pool → Bool)} (h : List.Perm l1 l2) (p : Pool) :
    l1.all (fun f => f p) = l2.all (fun f => f p) := by
  induction h with
  | nil => rfl
  | cons x _ ih => simp [List.all_cons, ih]
  | swap x y l => simp [List.all_cons, Bool.and_left_comm]
  | trans _ _ ih1 ih2 => rw [ih1, ih2]

/-- Sequentially applied filters equal one filter by the conjunction of
    their predicates. -/
theorem applyFilters_eq_filter_all (ps : List (Pool → Bool)) (l : List Pool) :
    applyFilters ps l = l.filter (fun p => ps.all (fun f => f p)) := by
  induction ps generalizing l with
  | nil => simp [applyFilters]
  | cons f fs ih =>
      show applyFilters fs (l.filter f) = _
      rw [ih, List.filter_filter]
      apply List.filter_congr
      intro x _
      simp [List.all_cons, Bool.and_comm]

/-- Every pipeline output element is the score augmentation of a record
    that survived the filter stages. -/
theorem mem_pipeline_elim {log10 : ℚ → ℚ} {raw : List Pool} {cfg : ViewConfig} {r : Ranked}
    (h : r ∈ pipeline log10 raw cfg) :
    ∃ p ∈ filteredPools raw cfg, r = withScore log10 p := by
  have h1 : r ∈ sortedPools log10 raw cfg := List.mem_of_mem_take h
  have h2 : r ∈ rankedPools log10 raw cfg := (List.mem_insertionSort _).mp h1
  obtain ⟨p, hp, he⟩ := List.mem_map.mp h2
  exact ⟨p, hp, he.symm⟩

/-- A record surviving the filter stages came from the raw list and passes
    all four filter predicates. -/
theorem mem_filtered_elim {raw : List Pool} {cfg : ViewConfig} {p : Pool}
    (h : p ∈ filteredPools raw cfg) :
    p ∈ raw ∧ chainPred p = true ∧ tvlPred cfg p = true
      ∧ stablePred cfg p = true ∧ textPred cfg p = true := by
  unfold filteredPools basePools at h
  obtain ⟨h, htext⟩ := List.mem_filter.mp h
  obtain ⟨h, hstable⟩ := List.mem_filter.mp h
  obtain ⟨h, htvl⟩ := List.mem_filter.mp h
  obtain ⟨h, hchain⟩ := List.mem_filter.mp h
  exact ⟨h, hchain, htvl, hstable, htext⟩

/-- The concrete `rawC1`/`cfgApy` pipeline sorts the null-`apy` pool ahead
    of the pool with real `apy = -2`. -/
theorem sortedPools_rawC1_eval :
    sortedPools l10z rawC1 cfgApy
      = [withScore l10z poolNullApy, withScore l10z poolNegApy] := rfl

/-- The single USDC pool survives the default-configuration pipeline. -/
theorem mem_pipeline_poolUSDC :
    withScore l10z poolUSDC ∈ pipeline l10z rawW cfgDefault := by
  have e : pipeline l10z rawW cfgDefault = [withScore l10z poolUSDC] := rfl
  rw [e]
  exact List.mem_singleton.mpr rfl

/-- Claim C1 (counterexample): the `apy` sort does not treat a null `apy`
    as below every real value — on a raw list holding a pool with real
    `apy = -2` and a pool with null `apy`, the null-`apy` pool sorts
    above the real one, so the adjacent-pairs property under the
    null-as-negative-infinity reading fails. -/
theorem apy_sort_null_not_bottom :
    ¬ (sortedPools l10z rawC1 cfgApy).Chain' (fun a b => apyGeWithNullBottom a b = true) := by
  intro h
  rw [sortedPools_rawC1_eval] at h
  have h2 := (List.chain'_cons.mp h).1
  exact Bool.noConfusion h2

/-- Claim C1 (amended): when the sort key is `apy`, the sort stage orders
    the filtered records by `apy` descending with null `apy` treated as the
    sentinel value `-1` (not negative infinity): for every pair of adjacent
    output elements `a` before `b`, `(a.apy ?? -1) ≥ (b.apy ?? -1)`. -/
theorem apy_sort_descending_neg_one_sentinel
    (log10 : ℚ → ℚ) (raw : List Pool) (cfg : ViewConfig)
    (h : cfg.sortBy = SortBy.apy) :
    (sortedPools log10 raw cfg).Chain' (fun a b => b.apy.getD (-1) ≤ a.apy.getD (-1)) := by
  unfold sortedPools
  rw [h]
  exact (key_sorted (sortKey SortBy.apy) (rankedPools log10 raw cfg)).chain'

/-- Witness for the amended C1 theorem at a concrete input. -/
theorem apy_sort_descending_neg_one_sentinel_witness :
    cfgApy.sortBy = SortBy.apy ∧
      (sortedPools l10z rawC1 cfgApy).Chain'
        (fun a b => b.apy.getD (-1) ≤ a.apy.getD (-1)) :=
  ⟨rfl, apy_sort_descending_neg_one_sentinel l10z rawC1 cfgApy rfl⟩

/-- Claim C2: the score of a record is exactly
    `(apy ?? 0) * log10(1 + (tvl ?? 0))`, and the score-augmentation map
    leaves every field of the underlying record unchanged (its `toPool`
    component is the input record itself). -/
theorem score_formula_and_frame (log10 : ℚ → ℚ) (p : Pool) :
    score log10 p = p.apy.getD 0 * log10 (1 + p.tvlUsd.getD 0)
      ∧ (withScore log10 p).toPool = p :=
  ⟨rfl, rfl⟩

/-- Claim C3: the stable-only filter stage keeps exactly the records
    satisfying the spec's stable predicate (explicit `stablecoin` field
    when present — including explicit `false` — else the uppercase
    substring heuristic over the eight fixed symbols), and passes every
    record through when `stableOnly` is unset. -/
theorem stable_filter_exact (cfg : ViewConfig) (l : List Pool) :
    l.filter (stablePred cfg) = if cfg.stableOnly then l.filter stableSpecPred else l := by
  cases hc : cfg.stableOnly with
  | false => simp [stablePred, hc, List.filter_true]
  | true =>
      simp only [if_true]
      apply List.filter_congr
      intro p _
      cases hs : p.stablecoin with
      | none => simp [stablePred, stableSpecPred, hc, hs, looksStable, stableSymbols]
      | some b => simp [stablePred, stableSpecPred, hc, hs]

/-- Claim C4: every pool in the pipeline output has `chain` exactly
    `"Base"` and `tvlUsd` (null as 0) at least `minTvl`. -/
theorem output_chain_base_and_tvl_floor (log10 : ℚ → ℚ) (raw : List Pool)
    (cfg : ViewConfig) (r : Ranked) (h : r ∈ pipeline log10 raw cfg) :
    r.chain = "Base" ∧ cfg.minTVL ≤ r.tvlUsd.getD 0 := by
  obtain ⟨p, hp, rfl⟩ := mem_pipeline_elim h
  obtain ⟨-, hchain, htvl, -, -⟩ := mem_filtered_elim hp
  constructor
  · simpa [withScore, chainPred] using hchain
  · exact of_decide_eq_true htvl

/-- Witness for C4 at a concrete input. -/
theorem output_chain_base_and_tvl_floor_witness :
    (withScore l10z poolUSDC ∈ pipeline l10z rawW cfgDefault) ∧
      ((withScore l10z poolUSDC).chain = "Base" ∧
        cfgDefault.minTVL ≤ (withScore l10z poolUSDC).tvlUsd.getD 0) :=
  ⟨mem_pipeline_poolUSDC,
    output_chain_base_and_tvl_floor l10z rawW cfgDefault _ mem_pipeline_poolUSDC⟩

/-- Claim C5: the pipeline output is exactly the first `limit` elements of
    the sorted filtered list, and its length is at most
    `min limit |filtered set|`. -/
theorem truncation_length_bound (log10 : ℚ → ℚ) (raw : List Pool) (cfg : ViewConfig) :
    pipeline log10 raw cfg = (sortedPools log10 raw cfg).take cfg.limit
      ∧ (pipeline log10 raw cfg).length ≤ min cfg.limit (filteredPools raw cfg).length := by
  refine ⟨rfl, ?_⟩
  have e1 : (pipeline log10 raw cfg).length
      = min cfg.limit (sortedPools log10 raw cfg).length :=
    List.length_take cfg.limit _
  have e2 : (sortedPools log10 raw cfg).length = (filteredPools raw cfg).length := by
    unfold sortedPools rankedPools
    rw [List.length_insertionSort, List.length_map]
  rw [e1, e2]

/-- Claim C6: the pipeline is a pure, deterministic function of the pair
    (raw list, configuration): identical inputs yield identical,
    identically-ordered outputs.  (The embedding is state-free: every stage
    returns a new list and the input list is never modified, matching the
    source where `filter`/`map`/`slice` allocate fresh arrays and the
    in-place `sort` runs on a freshly produced array.) -/
theorem pipeline_deterministic (log10 : ℚ → ℚ) (raw1 raw2 : List Pool)
    (cfg1 cfg2 : ViewConfig) (h1 : raw1 = raw2) (h2 : cfg1 = cfg2) :
    pipeline log10 raw1 cfg1 = pipeline log10 raw2 cfg2 := by
  rw [h1, h2]

/-- Witness for C6 at a concrete input. -/
theorem pipeline_deterministic_witness :
    rawW = rawW ∧ cfgDefault = cfgDefault ∧
      pipeline l10z rawW cfgDefault = pipeline l10z rawW cfgDefault :=
  ⟨rfl, rfl, pipeline_deterministic l10z rawW rawW cfgDefault cfgDefault rfl rfl⟩

/-- Claim C7: the four filter stages are independent record-local
    predicates and commute — applying them in any order yields the same
    surviving records in the same relative order as the source's order
    (chain, TVL floor, stable-only, text). -/
theorem filters_commute (raw : List Pool) (cfg : ViewConfig)
    (ps : List (Pool → Bool))
    (h : List.Perm ps [chainPred, tvlPred cfg, stablePred cfg, textPred cfg]) :
    applyFilters ps raw = filteredPools raw cfg := by
  rw [applyFilters_eq_filter_all]
  have e : filteredPools raw cfg
      = applyFilters [chainPred, tvlPred cfg, stablePred cfg, textPred cfg] raw := rfl
  rw [e, applyFilters_eq_filter_all]
  apply List.filter_congr
  intro p _
  exact all_perm_apply h p

/-- Witness for C7: a transposed filter order at a concrete input. -/
theorem filters_commute_witness :
    List.Perm [tvlPred cfgDefault, chainPred, stablePred cfgDefault, textPred cfgDefault]
        [chainPred, tvlPred cfgDefault, stablePred cfgDefault, textPred cfgDefault]
      ∧ applyFilters
          [tvlPred cfgDefault, chainPred, stablePred cfgDefault, textPred cfgDefault] rawW
        = filteredPools rawW cfgDefault :=
  ⟨List.Perm.swap chainPred (tvlPred cfgDefault) [stablePred cfgDefault, textPred cfgDefault],
    filters_commute rawW cfgDefault _
      (List.Perm.swap chainPred (tvlPred cfgDefault) [stablePred cfgDefault, textPred cfgDefault])⟩

/-- Claim C8: the sort stage is stable for every sort key — for every key
    value `c`, the records whose comparator key equals `c` appear in the
    sort output in exactly the order they had in the filtered list. -/
theorem sort_stage_stable (log10 : ℚ → ℚ) (raw : List Pool) (cfg : ViewConfig) (c : ℚ) :
    (sortedPools log10 raw cfg).filter (fun r => decide (sortKey cfg.sortBy r = c))
      = (rankedPools log10 raw cfg).filter (fun r => decide (sortKey cfg.sortBy r = c)) :=
  filterEq_insertionSort (sortKey cfg.sortBy) c (rankedPools log10 raw cfg)

/-- Claim C9: when the response JSON lacks a `data` field, the fulfilled
    fetch branch caches the empty list, leaves the error state untouched
    (no error is entered), and the pipeline run on that cache yields the
    empty list. -/
theorem missing_data_empty_not_error (log10 : ℚ → ℚ) (s : FetchState) (cfg : ViewConfig) :
    (onFetchSuccess none s).raw = [] ∧ (onFetchSuccess none s).err = s.err
      ∧ pipeline log10 (onFetchSuccess none s).raw cfg = [] := by
  refine ⟨rfl, rfl, ?_⟩
  simp [pipeline, sortedPools, rankedPools, filteredPools, basePools, onFetchSuccess]

/-- Claim C10: every pipeline output element carries a record of the raw
    input unchanged in all original fields (its `toPool` component is a
    member of the raw list), with only the computed `_score` field added. -/
theorem output_preserves_fields (log10 : ℚ → ℚ) (raw : List Pool) (cfg : ViewConfig)
    (r : Ranked) (h : r ∈ pipeline log10 raw cfg) :
    r.toPool ∈ raw ∧ r._score = score log10 r.toPool := by
  obtain ⟨p, hp, rfl⟩ := mem_pipeline_elim h
  exact ⟨(mem_filtered_elim hp).1, rfl⟩

/-- Witness for C10 at a concrete input. -/
theorem output_preserves_fields_witness :
    (withScore l10z poolUSDC ∈ pipeline l10z rawW cfgDefault) ∧
      ((withScore l10z poolUSDC).toPool ∈ rawW ∧
        (withScore l10z poolUSDC)._score = score l10z (withScore l10z poolUSDC).toPool) :=
  ⟨mem_pipeline_poolUSDC,
    output_preserves_fields l10z rawW cfgDefault _ mem_pipeline_poolUSDC⟩
